import Mathlib

/-!
Verification of the taggu metadata-resolution engine.

A shallow embedding of the core of the `taggu` repository (path-safety
normalization, metadata-file discovery, the parse-result cache and the
field-resolution engine), with theorems settling the spec claims.

Paths are modelled as lists of path segments.  A `pathlib.PurePosixPath`
is a flag saying whether the path is absolute plus its list of segments
(pathlib drops `.` and empty segments at construction, which theorem
hypotheses record where it matters).  Machinery follows the source files
`taggu/contexts/library.py`, `taggu/contexts/discovery.py`,
`taggu/contexts/query.py` and `taggu/meta_cache.py`.
-/

namespace Taggu

/-- Exceptions raised by the source (`taggu/exceptions.py`), plus the two
built-in Python exceptions the modelled code can raise: `KeyError` from
`MetaCacher.get_item_file`'s final `return mc[rel_item_path]`, and
`AttributeError` from `QueryContext.yield_field`'s call to the
nonexistent `taggu.helpers.recursive_flatten`. -/
inductive Err where
  | absoluteSubpath : Err
  | escapingSubpath : Err
  | nonUniqueFuzzyFileLookup (found : Nat) : Err
  | keyError : Err
  | attributeError : Err
deriving DecidableEq, Repr

/-- A relative path: the list of its segments, root-to-leaf. -/
abbrev RelPath := List String

/-- A `pathlib` path as passed to `LibraryContext.co_norm`: an
absolute-flag plus segments.  `pathlib` strips `.` and empty segments at
construction; `..` segments are kept. -/
structure PyPath where
  absRooted : Bool
  segs : List String
deriving DecidableEq, Repr

/-- A segment that survives `os.path.normpath` collapsing: not `.`, not
empty, not `..`. -/
def plainSeg (s : String) : Prop := s ≠ "." ∧ s ≠ "" ∧ s ≠ ".."

instance : DecidablePred plainSeg := fun s => by unfold plainSeg; infer_instance

/-- `os.path.normpath` on an absolute path (the source always normalizes
`root_dir / rel_sub_path` with `root_dir` absolute): `.` and empty
segments are dropped, `..` pops the previous segment and is dropped at
the filesystem root. -/
def collapseAbs (segs : List String) : List String :=
  segs.foldl
    (fun acc s =>
      if s = "." ∨ s = "" then acc
      else if s = ".." then acc.dropLast
      else acc ++ [s])
    []

/-- `PurePath.relative_to`: strip `pre` off the front of `ys` segment by
segment, `none` when `pre` is not a segment-prefix (pathlib raises
`ValueError` there). -/
def stripPrefixSegs : List String → List String → Option (List String)
  | [], ys => some ys
  | _ :: _, [] => none
  | x :: xs, y :: ys => if x = y then stripPrefixSegs xs ys else none

/-- `LibraryContext.co_norm` (contexts/library.py:46-65): reject absolute
inputs with `AbsoluteSubpath`; otherwise join to the root, collapse with
`os.path.normpath`, and re-derive the relative form with `relative_to`,
raising `EscapingSubpath` when the collapsed path left the root.
`root` is the configured absolute root directory's segments. -/
def coNorm (root : List String) (p : PyPath) : Except Err (RelPath × List String) :=
  if p.absRooted then
    .error .absoluteSubpath
  else
    match stripPrefixSegs root (collapseAbs (root ++ p.segs)) with
    | some r => .ok (r, collapseAbs (root ++ p.segs))
    | none => .error .escapingSubpath

instance {ε α : Type} [DecidableEq ε] [DecidableEq α] : DecidableEq (Except ε α) :=
  fun a b =>
    match a, b with
    | .error e, .error f =>
      if h : e = f then .isTrue (by rw [h]) else .isFalse (by intro hh; cases hh; exact h rfl)
    | .ok x, .ok y =>
      if h : x = y then .isTrue (by rw [h]) else .isFalse (by intro hh; cases hh; exact h rfl)
    | .error _, .ok _ => .isFalse (fun hh => Except.noConfusion hh)
    | .ok _, .error _ => .isFalse (fun hh => Except.noConfusion hh)

/-! ### Lemmas about path collapsing -/

theorem collapseAbs_append_singleton (xs : List String) (s : String) :
    collapseAbs (xs ++ [s]) =
      (if s = "." ∨ s = "" then collapseAbs xs
       else if s = ".." then (collapseAbs xs).dropLast
       else collapseAbs xs ++ [s]) := by
  unfold collapseAbs
  rw [List.foldl_append]
  rfl

theorem collapseAbs_plain (xs : List String) (h : ∀ s ∈ xs, plainSeg s) :
    collapseAbs xs = xs := by
  induction xs using List.reverseRecOn with
  | nil => rfl
  | append_singleton ys y ih =>
    have hy : plainSeg y := h y (by simp)
    obtain ⟨h1, h2, h3⟩ := hy
    rw [collapseAbs_append_singleton]
    rw [if_neg (by simp [h1, h2]), if_neg h3,
      ih (fun s hs => h s (by simp [hs]))]

theorem collapseAbs_mem_plain (xs : List String) :
    ∀ s ∈ collapseAbs xs, plainSeg s := by
  induction xs using List.reverseRecOn with
  | nil => intro s hs; simp [collapseAbs] at hs
  | append_singleton ys y ih =>
    intro s hs
    rw [collapseAbs_append_singleton] at hs
    by_cases h1 : y = "." ∨ y = ""
    · rw [if_pos h1] at hs; exact ih s hs
    · rw [if_neg h1] at hs
      by_cases h2 : y = ".."
      · rw [if_pos h2] at hs
        exact ih s (List.dropLast_sublist _ |>.mem hs)
      · rw [if_neg h2] at hs
        rcases List.mem_append.mp hs with h | h
        · exact ih s h
        · rcases List.mem_singleton.mp h with rfl
          push_neg at h1
          exact ⟨h1.1, h1.2, h2⟩

theorem stripPrefixSegs_eq_some_iff (xs ys zs : List String) :
    stripPrefixSegs xs ys = some zs ↔ ys = xs ++ zs := by
  induction xs generalizing ys with
  | nil => simp [stripPrefixSegs, eq_comm]
  | cons x xs ih =>
    cases ys with
    | nil => simp [stripPrefixSegs]
    | cons y ys =>
      by_cases hxy : x = y
      · subst hxy
        simp [stripPrefixSegs, ih]
      · constructor
        · intro h
          simp only [stripPrefixSegs, if_neg hxy] at h
          exact absurd h (by simp)
        · intro h
          injection h with h1 _
          exact absurd h1.symm hxy

theorem stripPrefixSegs_eq_none_iff (xs ys : List String) :
    stripPrefixSegs xs ys = none ↔ ¬ xs <+: ys := by
  constructor
  · intro h hpre
    obtain ⟨t, ht⟩ := hpre
    rw [(stripPrefixSegs_eq_some_iff xs ys t).mpr ht.symm] at h
    exact Option.noConfusion h
  · intro hpre
    cases hs : stripPrefixSegs xs ys with
    | none => rfl
    | some zs =>
      exact absurd ⟨zs, ((stripPrefixSegs_eq_some_iff xs ys zs).mp hs).symm⟩ hpre

/-! ### Claims C6 and C7 -/

/-- C6: `co_norm` raises `AbsoluteSubpath` on any absolute input, and
raises `EscapingSubpath` on any relative input whose collapsed join with
the root is neither the root nor a descendant of it (not root-prefixed);
in both cases the call fails with an error and no corrected path is
returned. -/
theorem coNorm_safety (root : List String) (p : PyPath) :
    (p.absRooted = true → coNorm root p = .error .absoluteSubpath) ∧
    (p.absRooted = false → ¬ root <+: collapseAbs (root ++ p.segs) →
      coNorm root p = .error .escapingSubpath) := by
  constructor
  · intro habs
    unfold coNorm
    rw [if_pos habs]
  · intro hrel hesc
    unfold coNorm
    rw [if_neg (by simp [hrel])]
    rw [(stripPrefixSegs_eq_none_iff _ _).mpr hesc]

/-- Witness for C6: an absolute input and a root-escaping input, both
rejected. -/
theorem coNorm_safety_witness :
    coNorm ["music"] ⟨true, ["x"]⟩ = .error .absoluteSubpath ∧
    coNorm ["music"] ⟨false, ["..", ".."]⟩ = .error .escapingSubpath :=
  ⟨(coNorm_safety ["music"] ⟨true, ["x"]⟩).1 rfl,
   (coNorm_safety ["music"] ⟨false, ["..", ".."]⟩).2 rfl (by decide)⟩

/-- Re-normalizing the relative component of a successful `co_norm`
result returns the same pair (the root, produced by `os.path.abspath`,
is free of `.`, empty and `..` segments). -/
theorem coNorm_renorm (root : List String) (segs r a : List String)
    (hroot : ∀ s ∈ root, plainSeg s)
    (h : coNorm root ⟨false, segs⟩ = .ok (r, a)) :
    coNorm root ⟨false, r⟩ = .ok (r, a) := by
  unfold coNorm at h ⊢
  rw [if_neg (by simp)] at h ⊢
  rcases hs : stripPrefixSegs root (collapseAbs (root ++ segs)) with _ | r'
  · rw [hs] at h; exact absurd h (by simp)
  · rw [hs] at h
    injection h with h
    injection h with h1 h2
    subst h1
    have ha : collapseAbs (root ++ segs) = root ++ r' :=
      (stripPrefixSegs_eq_some_iff _ _ _).mp hs
    have hr : ∀ s ∈ r', plainSeg s := by
      intro s hsr
      exact collapseAbs_mem_plain (root ++ segs) s (ha ▸ List.mem_append_right root hsr)
    have hcoll : collapseAbs (root ++ r') = root ++ r' := by
      refine collapseAbs_plain _ (fun s hs' => ?_)
      rcases List.mem_append.mp hs' with h' | h'
      · exact hroot s h'
      · exact hr s h'
    rw [hcoll, (stripPrefixSegs_eq_some_iff root (root ++ r') r').mpr rfl]
    subst h2
    rw [ha]

/-- C7: `co_norm` is idempotent on success: re-normalizing the
relative component of a successful result returns the same
(relative, absolute) pair.  The root is the output of `os.path.abspath`,
hence free of `.`, empty and `..` segments. -/
theorem coNorm_idempotent (root : List String) (segs r a : List String)
    (hroot : ∀ s ∈ root, plainSeg s)
    (h : coNorm root ⟨false, segs⟩ = .ok (r, a)) :
    coNorm root ⟨false, r⟩ = .ok (r, a) :=
  coNorm_renorm root segs r a hroot h

/-- Witness for C7: a path with a collapsible `..` normalizes to the same
pair when re-normalized. -/
theorem coNorm_idempotent_witness :
    coNorm ["music"] ⟨false, ["a", "..", "b"]⟩ = .ok (["b"], ["music", "b"]) ∧
    coNorm ["music"] ⟨false, ["b"]⟩ = .ok (["b"], ["music", "b"]) :=
  ⟨by decide, coNorm_idempotent ["music"] ["a", "..", "b"] ["b"] ["music", "b"]
    (by decide) (by decide)⟩

/-! ### YAML values and the filesystem model -/

/-- A parsed YAML value as produced by `taggu.helpers.read_yaml_file`:
null, string, sequence or mapping (recursively composite).  Mapping keys
are strings, as `yaml.BaseLoader` resolves every plain scalar to a
string. -/
inductive Value where
  | vnull : Value
  | vstr (s : String) : Value
  | vseq (l : List Value) : Value
  | vmap (l : List (String × Value)) : Value

/-- A filesystem entry: a file (carrying its parsed-YAML content, which
only matters for metadata files) or a directory with named children in
directory-listing order. -/
inductive FsEntry where
  | file (content : Value) : FsEntry
  | dir (entries : List (String × FsEntry)) : FsEntry

/-- First entry with the given name in a directory listing. -/
def lookupEntry : List (String × FsEntry) → String → Option FsEntry
  | [], _ => none
  | (m, e) :: rest, n => if m = n then some e else lookupEntry rest n

/-- Resolve a relative path against the subtree rooted at `e`. -/
def FsEntry.find (e : FsEntry) : RelPath → Option FsEntry
  | [] => some e
  | n :: rest =>
    match e with
    | .file _ => none
    | .dir es =>
      match lookupEntry es n with
      | some ce => ce.find rest
      | none => none

/-- The configuration enclosed by `gen_library_ctx`
(contexts/library.py:209-239): the absolute root directory (as segments
and as the directory tree rooted there), the optional item-eligibility
filter and sort key, and the two metadata file names.  The filter and
sort key act on the item's absolute path; since all items compared or
filtered live in one directory, they are modelled as functions of the
entry name (and, for the filter, the entry itself, standing in for
`is_file`/`is_dir`/suffix tests). -/
structure LibCfg where
  rootSegs : List String
  fs : FsEntry
  itemFilter : Option (String → FsEntry → Bool)
  sortKeyF : Option (String → String)
  selfMetaFileName : String
  itemMetaFileName : String

/-- `co_norm` as invoked on the always-relative paths the engine passes
around. -/
def coNormRel (cfg : LibCfg) (r : RelPath) : Except Err (RelPath × List String) :=
  coNorm cfg.rootSegs ⟨false, r⟩

def isDirAt (cfg : LibCfg) (r : RelPath) : Bool :=
  match cfg.fs.find r with
  | some (.dir _) => true
  | _ => false

def isFileAt (cfg : LibCfg) (r : RelPath) : Bool :=
  match cfg.fs.find r with
  | some (.file _) => true
  | _ => false

/-- Parsed content of the (metadata) file at `r`; only consulted after an
`is_file` check. -/
def contentAt (cfg : LibCfg) (r : RelPath) : Value :=
  match cfg.fs.find r with
  | some (.file v) => v
  | _ => .vnull

/-- All entry names of the directory at `r` (empty for files and missing
paths, as `iterdir`/`glob` on them yields nothing). -/
def allNamesAt (cfg : LibCfg) (r : RelPath) : List String :=
  match cfg.fs.find r with
  | some (.dir es) => es.map Prod.fst
  | _ => []

def applyFilter (cfg : LibCfg) (n : String) (e : FsEntry) : Bool :=
  match cfg.itemFilter with
  | none => true
  | some f => f n e

def keyOf (cfg : LibCfg) (n : String) : String :=
  match cfg.sortKeyF with
  | none => n
  | some f => f n

def nameLe (cfg : LibCfg) (a b : String) : Bool := decide (keyOf cfg a ≤ keyOf cfg b)

/-- Stable insert for insertion sort: `x` goes after every element `≤` it. -/
def insertLe {α : Type} (le : α → α → Bool) (x : α) : List α → List α
  | [] => [x]
  | y :: ys => if le y x then y :: insertLe le x ys else x :: y :: ys

/-- Stable insertion sort, modelling Python's stable `sorted`. -/
def sortOn {α : Type} (le : α → α → Bool) : List α → List α
  | [] => []
  | x :: xs => insertLe le x (sortOn le xs)

theorem mem_insertLe {α : Type} (le : α → α → Bool) (x : α) (l : List α) (a : α) :
    a ∈ insertLe le x l ↔ a = x ∨ a ∈ l := by
  induction l with
  | nil => simp [insertLe]
  | cons y ys ih =>
    by_cases h : le y x = true
    · simp only [insertLe, if_pos h, List.mem_cons, ih]
      tauto
    · simp only [insertLe, if_neg h, List.mem_cons]

theorem mem_sortOn {α : Type} (le : α → α → Bool) (l : List α) (a : α) :
    a ∈ sortOn le l ↔ a ∈ l := by
  induction l with
  | nil => simp [sortOn]
  | cons x xs ih => simp [sortOn, mem_insertLe, ih]

/-- Eligible directory entries at `r`: the children passing the
configured item filter (`LibraryContext.yield_item_paths_in_dir`),
paired with their subtrees. -/
def eligibleEntries (cfg : LibCfg) (r : RelPath) : List (String × FsEntry) :=
  match cfg.fs.find r with
  | some (.dir es) => es.filter (fun p => applyFilter cfg p.1 p.2)
  | _ => []

/-- `LibraryContext.item_names_in_dir` (a set; modelled as the list of
eligible names, used only for membership). -/
def itemNamesInDir (cfg : LibCfg) (r : RelPath) : List String :=
  (eligibleEntries cfg r).map Prod.fst

/-- `LibraryContext.sorted_item_names_in_dir`: eligible names sorted by
the configured key. -/
def sortedItemNamesInDir (cfg : LibCfg) (r : RelPath) : List String :=
  sortOn (nameLe cfg) (itemNamesInDir cfg r)

/-! ### Fuzzy lookup (claim C8 machinery) -/

/-- Shell-glob matching as done by `fnmatch` for the patterns
`fuzzy_name_lookup` builds (`prefix + "*"`): `*` matches any run of
characters, `?` any single character, anything else itself.  (`[...]`
character classes are not modelled; theorems about globbing exclude `[`
from the prefix.) -/
def globMatch (p : List Char) (s : List Char) : Bool :=
  match p with
  | [] => s.isEmpty
  | c :: ps =>
    if c = '*' then (s.tails).any (fun t => globMatch ps t)
    else
      match s with
      | [] => false
      | d :: ss => (c = '?' || c = d) && globMatch ps ss

/-- `LibraryContext.fuzzy_name_lookup` (contexts/library.py:79-94):
normalize the directory path, glob `prefix*` in it, demand exactly one
match and return its name, raising `NonUniqueFuzzyFileLookup` (with the
found count) otherwise. -/
def fuzzyNameLookup (cfg : LibCfg) (rdir : RelPath) (pfx : String) : Except Err String :=
  match coNormRel cfg rdir with
  | .error e => .error e
  | .ok (r, _) =>
    match (allNamesAt cfg r).filter (fun n => globMatch (pfx.toList ++ ['*']) n.toList) with
    | [n] => .ok n
    | rs => .error (.nonUniqueFuzzyFileLookup rs.length)

/-- `taggu.helpers.is_valid_item_name`: a single, bare path segment —
nonempty, free of separators, and not `.` or `..`. -/
def isValidItemName (k : String) : Bool :=
  !(k = "") && !(k.toList.contains '/') && !(k = ".") && !(k = "..")

/-! ### Generator results

A Python generator may yield some items and then raise.  A run of a
generator is modelled as the list of items yielded before completion or
failure, together with the exception, if any, that ended it. -/

/-- A fully-consumed generator run: yielded items plus optional
terminating exception. -/
abbrev GenM (α : Type) := List α × Option Err

/-- Sequencing of two generator runs (`yield from a; yield from b`): if
`a` raised, `b` never runs. -/
def genAppend {α : Type} (a b : GenM α) : GenM α :=
  if a.2.isSome then a else (a.1 ++ b.1, b.2)

/-- Concatenation of generator runs in order, stopping at the first
exception. -/
def genJoin {α : Type} (l : List (GenM α)) : GenM α :=
  l.foldr genAppend ([], none)

/-! ### Discovery engine (contexts/discovery.py, contexts/library.py) -/

/-- `LibraryContext.yield_contains_dir`: normalize, then yield the path
itself iff it is an existing directory. -/
def yieldContainsDir (cfg : LibCfg) (rip : RelPath) : Except Err (List RelPath) :=
  match coNormRel cfg rip with
  | .error e => .error e
  | .ok (r, _) => .ok (if isDirAt cfg r then [r] else [])

/-- `LibraryContext.yield_siblings_dir`: the parent directory, unless the
path is its own parent (the library root, `.`). -/
def yieldSiblingsDir (rip : RelPath) : List RelPath :=
  if rip.isEmpty then [] else [rip.dropLast]

/-- One iteration of the loop in `DC.meta_files_from_item`
(contexts/discovery.py:68-78): re-normalize each candidate directory and
keep `dir / metaFileName` when that file exists on disk. -/
def metaFilesFromSpec (cfg : LibCfg) (metaName : String) (dirs : List RelPath) :
    Except Err (List RelPath) :=
  dirs.foldlM
    (fun acc d =>
      match coNormRel cfg d with
      | .error e => .error e
      | .ok (rd, _) =>
        pure (if isFileAt cfg (rd ++ [metaName]) then acc ++ [rd ++ [metaName]] else acc))
    []

/-- `DC.meta_files_from_item`: walk the meta source specs in the priority
order emitted by `LibraryContext.yield_meta_source_specs`
(contexts/library.py:195-206): the self-role spec (tied to
`yield_contains_dir`) first, then the item-role spec (tied to
`yield_siblings_dir`). -/
def metaFilesFromItem (cfg : LibCfg) (rip : RelPath) : Except Err (List RelPath) := do
  let selfDirs ← yieldContainsDir cfg rip
  let selfFiles ← metaFilesFromSpec cfg cfg.selfMetaFileName selfDirs
  let itemFiles ← metaFilesFromSpec cfg cfg.itemMetaFileName (yieldSiblingsDir rip)
  pure (selfFiles ++ itemFiles)

/-- `LibraryContext.yield_self_meta_pairs`: a mapping payload describes
exactly the containing directory; any other payload is ignored. -/
def yieldSelfMetaPairs (yaml : Value) (dirPath : RelPath) : GenM (RelPath × Value) :=
  match yaml with
  | .vmap m => ([(dirPath, .vmap m)], none)
  | _ => ([], none)

/-- The per-key loop of the mapping branch of
`LibraryContext.yield_item_meta_pairs` (contexts/library.py:158-187):
skip invalid names, fuzzy-resolve (which may raise), skip names already
processed or not eligible, otherwise yield the pair and record the
name. -/
def itemMapLoop (cfg : LibCfg) (r : RelPath) (itemNames : List String) :
    List (String × Value) → List String → GenM (RelPath × Value)
  | [], _ => ([], none)
  | (k, b) :: rest, processed =>
    if !(isValidItemName k) then itemMapLoop cfg r itemNames rest processed
    else
      match fuzzyNameLookup cfg r k with
      | .error e => ([], some e)
      | .ok n =>
        if processed.contains n then itemMapLoop cfg r itemNames rest processed
        else if !(itemNames.contains n) then itemMapLoop cfg r itemNames rest processed
        else
          let (tl, e) := itemMapLoop cfg r itemNames rest (n :: processed)
          ((r ++ [n], b) :: tl, e)

/-- `LibraryContext.yield_item_meta_pairs`: a sequence payload is zipped
positionally against the sorted eligible names (shorter length wins,
with a count-mismatch warning that has no effect on the result); a
mapping payload goes through the per-key loop.  A Python `str` is also a
`Sequence`, pairing names with its one-character substrings; `None`
matches neither branch and yields nothing. -/
def yieldItemMetaPairs (cfg : LibCfg) (yaml : Value) (dirPath : RelPath) :
    GenM (RelPath × Value) :=
  match coNormRel cfg dirPath with
  | .error e => ([], some e)
  | .ok (r, _) =>
    let itemNames := itemNamesInDir cfg r
    match yaml with
    | .vseq blocks =>
      (((sortOn (nameLe cfg) itemNames).zip blocks).map (fun p => (r ++ [p.1], p.2)), none)
    | .vstr s =>
      (((sortOn (nameLe cfg) itemNames).zip
          (s.toList.map (fun c => Value.vstr c.toString))).map
        (fun p => (r ++ [p.1], p.2)), none)
    | .vmap entries => itemMapLoop cfg r itemNames entries []
    | .vnull => ([], none)

/-- `DC.items_from_meta_file` (contexts/discovery.py:80-117): normalize,
soft-skip missing files and unknown meta file names, otherwise parse the
file and dispatch to the multiplexer of the first meta source spec whose
file name matches (self-role first, matching the spec emission order). -/
def itemsFromMetaFile (cfg : LibCfg) (rmp : RelPath) : GenM (RelPath × Value) :=
  match coNormRel cfg rmp with
  | .error e => ([], some e)
  | .ok (r, _) =>
    if !(isFileAt cfg r) then ([], none)
    else
      let dirPath := r.dropLast
      let name := (r.getLast?).getD ""
      if name = cfg.selfMetaFileName then yieldSelfMetaPairs (contentAt cfg r) dirPath
      else if name = cfg.itemMetaFileName then yieldItemMetaPairs cfg (contentAt cfg r) dirPath
      else ([], none)

/-! ### Association-list primitives (Python `dict` in insertion order) -/

def alGet {α β : Type} [DecidableEq α] : List (α × β) → α → Option β
  | [], _ => none
  | (k', v) :: rest, k => if k' = k then some v else alGet rest k

def alContains {α β : Type} [DecidableEq α] (l : List (α × β)) (k : α) : Bool :=
  (alGet l k).isSome

/-- `d[k] = v`: overwrite in place, or append a new entry. -/
def alSet {α β : Type} [DecidableEq α] : List (α × β) → α → β → List (α × β)
  | [], k, v => [(k, v)]
  | (k', v') :: rest, k, v =>
    if k' = k then (k, v) :: rest else (k', v') :: alSet rest k v

/-- `d.pop(k, None)`. -/
def alRemove {α β : Type} [DecidableEq α] : List (α × β) → α → List (α × β)
  | [], _ => []
  | (k', v') :: rest, k => if k' = k then rest else (k', v') :: alRemove rest k

/-- Apply `f` to the value stored at `k` (used for `d[k][i] = v`). -/
def alMapAt {α β : Type} [DecidableEq α] : List (α × β) → α → (β → β) → List (α × β)
  | [], _, _ => []
  | (k', v) :: rest, k, f =>
    if k' = k then (k', f v) :: rest else (k', v) :: alMapAt rest k f

/-! ### Metadata cache (meta_cache.py) -/

/-- The parse result of one meta file: item path → metadata block. -/
abbrev MetadataRecord := List (RelPath × Value)

/-- The process-wide cache: meta file path → record. -/
abbrev MetaFileCache := List (RelPath × MetadataRecord)

/-- `MetaCacher.cache_meta_files` for a single path
(meta_cache.py:27-49): skip when cached and not forced; otherwise drop
any stale entry and re-parse, inserting `{}` at the key the first time a
pair arrives, then the pair itself.  Returns the new cache, whether the
discovery engine was invoked (the parse-count probe), and any exception
the parse raised (pairs yielded before it are already inserted). -/
def cacheMetaFile (cfg : LibCfg) (c : MetaFileCache) (rmp : RelPath) (force : Bool) :
    MetaFileCache × Bool × Option Err :=
  if !force && alContains c rmp then (c, false, none)
  else
    let c1 := alRemove c rmp
    let (pairs, err) := itemsFromMetaFile cfg rmp
    let c2 := pairs.foldl
      (fun cc pv =>
        let cc' := if !(alContains cc rmp) then cc ++ [(rmp, ([] : MetadataRecord))] else cc
        alMapAt cc' rmp (fun rec => alSet rec pv.1 pv.2))
      c1
    (c2, true, err)

/-- The candidate-file walk of `MetaCacher.get_item_file`
(meta_cache.py:104-117): for each candidate meta file, consult it only
if cached; return the first record entry for the item.  When every
candidate misses, the method's final `return mc[rel_item_path]` raises
`KeyError` (its own comment: so we can return a KeyError). -/
def getItemLoop (c : MetaFileCache) (rip : RelPath) : List RelPath → Except Err Value
  | [] => .error .keyError
  | rmp :: rest =>
    match alGet c rmp with
    | some mc =>
      match alGet mc rip with
      | some v => .ok v
      | none => getItemLoop c rip rest
    | none => getItemLoop c rip rest

/-- `MetaCacher.get_item_file`. -/
def getItemFile (cfg : LibCfg) (c : MetaFileCache) (rip : RelPath) : Except Err Value :=
  match metaFilesFromItem cfg rip with
  | .error e => .error e
  | .ok mps => getItemLoop c rip mps

/-! ### Resolution engine (contexts/query.py) -/

/-- `MappingIterStyle`: iterate a mapping by keys, values or pairs. -/
inductive MappingIterStyle where
  | keys : MappingIterStyle
  | vals : MappingIterStyle
  | pairs : MappingIterStyle
deriving DecidableEq, Repr

/-- `mis_keys` / `mis_vals` / `mis_pairs`: the chosen iteration over a
mapping's entries (a Python `(key, value)` tuple is a sequence). -/
def misApply : MappingIterStyle → List (String × Value) → List Value
  | .keys, m => m.map (fun p => .vstr p.1)
  | .vals, m => m.map Prod.snd
  | .pairs, m => m.map (fun p => .vseq [.vstr p.1, p.2])

/-- The field-value conversion inside `QueryContext.yield_field`
(contexts/query.py:131-154): null and strings are yielded as-is;
sequences and mappings with `recursive=True` (the default, and the only
mode any caller uses) reach `th.recursive_flatten`, a function
`taggu.helpers` does not define, so the generator raises
`AttributeError` before yielding anything; with `recursive=False` a
sequence yields its elements and a mapping the chosen iteration. -/
def convertFieldVal (style : MappingIterStyle) (recursive : Bool) : Value → GenM Value
  | .vnull => ([.vnull], none)
  | .vstr s => ([.vstr s], none)
  | .vseq l => if recursive then ([], some .attributeError) else (l, none)
  | .vmap m => if recursive then ([], some .attributeError) else (misApply style m, none)

/-- `field_name in meta_dict` / `meta_dict[field_name]` for a metadata
block.  Only mapping blocks are modelled: `types.py` declares `Metadata`
as a mapping, and on any other block the source's `in` test is a
substring or membership test followed by an indexing `TypeError`, which
no claim exercises. -/
def blockGet : Value → String → Option Value
  | .vmap es, f => alGet es f
  | _, _ => none

/-- The query context configuration (`gen_query_ctx`): a library context
plus the optional label extractor.  The extractor receives the relative
item path, as in the source.  The meta cacher is not modelled
(`use_cache=False`): with a cacher the lookup reads a freshly parsed
record of the same meta file, which over an immutable filesystem is the
same record the no-cache branch builds inline. -/
structure QueryCfg where
  lib : LibCfg
  labelExtractor : Option (RelPath → String)

/-- The per-meta-file loop of `QueryContext.yield_field`
(contexts/query.py:113-163): build the item→block record of the meta
file, look up the item, then the field; on a hit convert the value and
stop; otherwise continue to the next candidate file. -/
def fieldLoop (q : QueryCfg) (rip : RelPath) (fieldName : String)
    (style : MappingIterStyle) (recursive : Bool) : List RelPath → GenM Value
  | [] => ([], none)
  | rmp :: rest =>
    let (pairs, err) := itemsFromMetaFile q.lib rmp
    match err with
    | some e => ([], some e)
    | none =>
      let tc := pairs.foldl (fun m pv => alSet m pv.1 pv.2) ([] : MetadataRecord)
      match alGet tc rip with
      | none => fieldLoop q rip fieldName style recursive rest
      | some block =>
        match blockGet block fieldName with
        | none => fieldLoop q rip fieldName style recursive rest
        | some fv => convertFieldVal style recursive fv

/-- `QueryContext.yield_field`: label gate first (when both a label set
and an extractor are configured and the item's label is not in the set,
yield nothing), then the candidate-file loop in discovery priority
order. -/
def yieldField (q : QueryCfg) (rip : RelPath) (fieldName : String)
    (labels : Option (List String)) (style : MappingIterStyle)
    (recursive : Bool := true) : GenM Value :=
  match labels, q.labelExtractor with
  | some ls, some ex =>
    if !(ls.contains (ex rip)) then ([], none)
    else
      match metaFilesFromItem q.lib rip with
      | .error e => ([], some e)
      | .ok mps => fieldLoop q rip fieldName style recursive mps
  | _, _ =>
    match metaFilesFromItem q.lib rip with
    | .error e => ([], some e)
    | .ok mps => fieldLoop q rip fieldName style recursive mps

/-- `PurePath.parents` of a relative path: proper ancestors, nearest
first, ending at `.` (the root); the root itself has none. -/
def parentsOf (r : RelPath) : List RelPath :=
  (List.range r.length).reverse.map (fun i => r.take i)

/-- The ancestor loop of `QueryContext.yield_parent_fields`
(contexts/query.py:165-185): yield the fields of each ancestor in turn
and stop at the first ancestor that produced at least one value. -/
def parentLoop (q : QueryCfg) (fieldName : String) (labels : Option (List String))
    (style : MappingIterStyle) : List RelPath → GenM Value
  | [] => ([], none)
  | p :: rest =>
    let f := yieldField q p fieldName labels style true
    if f.2.isSome then f
    else if f.1.isEmpty then parentLoop q fieldName labels style rest
    else f

/-- `QueryContext.yield_parent_fields`: enumerate ancestors nearest
first, truncated to `max_distance` when that is given and
non-negative. -/
def yieldParentFields (q : QueryCfg) (rip : RelPath) (fieldName : String)
    (maxD : Option Int) (labels : Option (List String)) (style : MappingIterStyle) :
    GenM Value :=
  let paths := parentsOf rip
  let paths :=
    match maxD with
    | some d => if 0 ≤ d then paths.take d.toNat else paths
    | none => paths
  parentLoop q fieldName labels style paths

/-- First-non-empty choice between generator runs, the shape of the
`found` flag in the traversals: keep `a` if it raised or yielded,
otherwise run `b`. -/
def genOrElse {α : Type} (a b : GenM α) : GenM α :=
  if a.2.isSome then a else if a.1.isEmpty then b else a

def decrMd : Option Int → Option Int
  | none => none
  | some d => some (d - 1)

/-- `md is None or md > 0`. -/
def mdPos : Option Int → Bool
  | none => true
  | some d => decide (0 < d)

/-- The sorted eligible children of a directory listing, with their
subtrees (`sorted_item_names_in_dir`, keeping the pairing with each
child's entry). -/
def sortedEligiblePairs (cfg : LibCfg) (es : List (String × FsEntry)) :
    List (String × FsEntry) :=
  sortOn (fun p q => nameLe cfg p.1 q.1) (es.filter (fun p => applyFilter cfg p.1 p.2))

theorem mem_sortedEligiblePairs {cfg : LibCfg} {es : List (String × FsEntry)}
    {p : String × FsEntry} (h : p ∈ sortedEligiblePairs cfg es) : p ∈ es := by
  unfold sortedEligiblePairs at h
  exact List.mem_of_mem_filter ((mem_sortOn _ _ _).mp h)

theorem sizeOf_snd_lt_dir {es : List (String × FsEntry)} {p : String × FsEntry}
    (h : p ∈ es) : sizeOf p.2 < sizeOf (FsEntry.dir es) := by
  have h1 := List.sizeOf_lt_of_mem h
  obtain ⟨n, e⟩ := p
  simp only [Prod.mk.sizeOf_spec] at h1
  simp only [FsEntry.dir.sizeOf_spec]
  omega

/-- The inner `helper` of `QueryContext.yield_child_fields`
(contexts/query.py:198-217): on a directory with budget left, walk the
sorted eligible children; a child's own fields if it yielded any,
otherwise its subtree with the budget decremented.  The source recurses
on the child's path and re-resolves it from the filesystem; for
termination the child's subtree (exactly what that path resolves to when
directory entry names are unique) is passed along explicitly. -/
def childHelper (q : QueryCfg) (fieldName : String) (labels : Option (List String))
    (style : MappingIterStyle) : RelPath → Option Int → FsEntry → GenM Value
  | _, _, .file _ => ([], none)
  | rip, md, .dir es =>
    if mdPos md then
      genJoin ((sortedEligiblePairs q.lib es).attach.map
        (fun pe =>
          genOrElse (yieldField q (rip ++ [pe.val.1]) fieldName labels style true)
            (childHelper q fieldName labels style (rip ++ [pe.val.1]) (decrMd md) pe.val.2)))
    else ([], none)
termination_by _ _ e => sizeOf e
decreasing_by
  exact sizeOf_snd_lt_dir (mem_sortedEligiblePairs pe.property)

/-- `QueryContext.yield_child_fields`: normalize the item path, then run
the recursive helper from the item's subtree (a missing path or file is
not a directory, so nothing is yielded). -/
def yieldChildFields (q : QueryCfg) (rip : RelPath) (fieldName : String)
    (maxD : Option Int) (labels : Option (List String)) (style : MappingIterStyle) :
    GenM Value :=
  match coNormRel q.lib rip with
  | .error e => ([], some e)
  | .ok (r, _) =>
    match q.lib.fs.find r with
    | some e => childHelper q fieldName labels style r maxD e
    | none => ([], none)

/-! ### Supporting lemmas -/

theorem coNormRel_plain (cfg : LibCfg) (r : RelPath)
    (hroot : ∀ s ∈ cfg.rootSegs, plainSeg s) (hr : ∀ s ∈ r, plainSeg s) :
    coNormRel cfg r = .ok (r, cfg.rootSegs ++ r) := by
  unfold coNormRel coNorm
  rw [if_neg (by simp)]
  have hcoll : collapseAbs (cfg.rootSegs ++ r) = cfg.rootSegs ++ r := by
    refine collapseAbs_plain _ (fun s hs => ?_)
    rcases List.mem_append.mp hs with h | h
    · exact hroot s h
    · exact hr s h
  rw [hcoll, (stripPrefixSegs_eq_some_iff cfg.rootSegs (cfg.rootSegs ++ r) r).mpr rfl]

theorem alGet_alMapAt {α β : Type} [DecidableEq α] (l : List (α × β)) (k k' : α)
    (f : β → β) :
    alGet (alMapAt l k f) k' =
      if k = k' then (alGet l k').map f else alGet l k' := by
  induction l with
  | nil =>
    simp only [alMapAt, alGet]
    split <;> simp
  | cons p rest ih =>
    obtain ⟨pk, pv⟩ := p
    by_cases h1 : pk = k
    · subst h1
      rw [alMapAt, if_pos rfl]
      by_cases h2 : pk = k'
      · rw [alGet, if_pos h2, alGet, if_pos h2, if_pos h2]
        rfl
      · rw [alGet, if_neg h2, alGet, if_neg h2, if_neg h2]
    · rw [alMapAt, if_neg h1]
      by_cases h2 : pk = k'
      · rw [alGet, if_pos h2, alGet, if_pos h2,
          if_neg (fun hh : k = k' => h1 (h2.trans hh.symm))]
      · rw [alGet, if_neg h2, alGet, if_neg h2]
        exact ih

theorem alContains_alMapAt {α β : Type} [DecidableEq α] (l : List (α × β)) (k k' : α)
    (f : β → β) : alContains (alMapAt l k f) k' = alContains l k' := by
  unfold alContains
  rw [alGet_alMapAt]
  by_cases h : k = k'
  · rw [if_pos h]; cases alGet l k' <;> simp
  · rw [if_neg h]

theorem alGet_alRemove_self {α β : Type} [DecidableEq α] (l : List (α × β)) (k : α)
    (hnd : (l.map Prod.fst).Nodup) : alGet (alRemove l k) k = none := by
  induction l with
  | nil => simp [alRemove, alGet]
  | cons p rest ih =>
    obtain ⟨pk, pv⟩ := p
    simp only [List.map_cons, List.nodup_cons] at hnd
    by_cases h : pk = k
    · subst h
      rw [alRemove, if_pos rfl]
      clear ih
      induction rest with
      | nil => simp [alGet]
      | cons q rest' ih' =>
        obtain ⟨qk, qv⟩ := q
        have hqk : qk ≠ pk := by
          intro hq
          exact hnd.1 (by simp [hq])
        rw [alGet, if_neg (fun h => hqk h)]
        exact ih' ⟨fun hm => hnd.1 (List.mem_cons_of_mem _ hm), hnd.2.of_cons⟩
    · rw [alRemove, if_neg h, alGet, if_neg h]
      exact ih hnd.2

theorem alGet_append_of_none {α β : Type} [DecidableEq α] (l l' : List (α × β)) (k : α)
    (h : alGet l k = none) : alGet (l ++ l') k = alGet l' k := by
  induction l with
  | nil => simp
  | cons p rest ih =>
    obtain ⟨pk, pv⟩ := p
    by_cases hp : pk = k
    · rw [alGet, if_pos hp] at h
      exact absurd h (by simp)
    · rw [alGet, if_neg hp] at h
      rw [List.cons_append, alGet, if_neg hp]
      exact ih h

/-! ### Claim C1: `MetaCacher.get_item_file` on a full miss -/

theorem getItemLoop_miss (c : MetaFileCache) (rip : RelPath) (mps : List RelPath)
    (hmiss : ∀ rmp ∈ mps, ∀ mc, alGet c rmp = some mc → alGet mc rip = none) :
    getItemLoop c rip mps = .error .keyError := by
  induction mps with
  | nil => rfl
  | cons rmp rest ih =>
    cases hg : alGet c rmp with
    | none =>
      simp only [getItemLoop, hg]
      exact ih (fun r hr mc h => hmiss r (List.mem_cons_of_mem _ hr) mc h)
    | some mc =>
      simp only [getItemLoop, hg, hmiss rmp (List.mem_cons_self _ _) mc hg]
      exact ih (fun r hr mc' h => hmiss r (List.mem_cons_of_mem _ hr) mc' h)

/-- C1, amended: When every candidate metadata file for an item lacks
a cached entry for it (in particular when there are no candidates at
all), `MetaCacher.get_item_file` raises `KeyError` — it does not return
a "no metadata" value.  (Its final statement is `return
mc[rel_item_path]`, commented "Doing this so we can return a KeyError",
and `test_get_item_file` asserts the raise.) -/
theorem getItemFile_full_miss (cfg : LibCfg) (c : MetaFileCache) (rip : RelPath)
    (mps : List RelPath) (hm : metaFilesFromItem cfg rip = .ok mps)
    (hmiss : ∀ rmp ∈ mps, ∀ mc, alGet c rmp = some mc → alGet mc rip = none) :
    getItemFile cfg c rip = .error .keyError := by
  unfold getItemFile
  rw [hm]
  exact getItemLoop_miss c rip mps hmiss

/-- A library whose root holds a single directory `d` carrying a
self-role metadata file. -/
def cfgC1 : LibCfg :=
  { rootSegs := ["lib"]
    fs := .dir [("d", .dir [("taggu_self.yml", .file (.vmap [("genre", .vstr "Rock")]))])]
    itemFilter := none
    sortKeyF := none
    selfMetaFileName := "taggu_self.yml"
    itemMetaFileName := "taggu_item.yml" }

/-- A cache holding an (empty) record for `d`'s self metadata file, so
the candidate file is cached but has no entry for the item `d`. -/
def cacheC1 : MetaFileCache := [(["d", "taggu_self.yml"], [])]

/-- Witness for C1 (amended): `d` has one candidate metadata file, it is
cached without an entry for `d`, and the lookup raises `KeyError`. -/
theorem getItemFile_full_miss_witness :
    metaFilesFromItem cfgC1 ["d"] = .ok [["d", "taggu_self.yml"]] ∧
    getItemFile cfgC1 cacheC1 ["d"] = .error .keyError := by
  refine ⟨rfl, getItemFile_full_miss cfgC1 cacheC1 ["d"] [["d", "taggu_self.yml"]] rfl ?_⟩
  intro rmp hrm mc h
  rcases List.mem_singleton.mp hrm with rfl
  have : some ([] : MetadataRecord) = some mc := h
  injection this with h'
  rw [← h']
  rfl

/-- A library whose root holds one plain item and no metadata files at
all. -/
def cfgNoMeta : LibCfg :=
  { rootSegs := ["lib"]
    fs := .dir [("a.mp3", .file .vnull)]
    itemFilter := none
    sortKeyF := none
    selfMetaFileName := "taggu_self.yml"
    itemMetaFileName := "taggu_item.yml" }

/-- Counterexample to C1 as stated: an item with no candidate metadata
files makes `get_item_file` raise `KeyError` instead of returning a
"no metadata" result. -/
theorem getItemFile_counterexample :
    getItemFile cfgNoMeta [] ["a.mp3"] = .error .keyError := rfl

/-! ### Claim C4: `MetaCacher.cache_meta_files` and empty parses -/

/-- C4, amended: Starting from a cache without the key, one `ensure`
stores an entry under the metadata-file path exactly when the Discovery
Engine yielded at least one (item, block) pair; and a second `ensure`
without `force` re-parses exactly when the first parse yielded no pairs
(an empty parse is not remembered, so repeated misses re-parse). -/
theorem cacheMetaFile_stores_iff_nonempty (cfg : LibCfg) (c : MetaFileCache)
    (rmp : RelPath) (hnd : (c.map Prod.fst).Nodup) (hc : alContains c rmp = false) :
    alContains (cacheMetaFile cfg c rmp false).1 rmp
        = !(itemsFromMetaFile cfg rmp).1.isEmpty ∧
      (cacheMetaFile cfg (cacheMetaFile cfg c rmp false).1 rmp false).2.1
        = (itemsFromMetaFile cfg rmp).1.isEmpty := by
  have hstep : ∀ (cc : MetaFileCache) (pv : RelPath × Value),
      alContains cc rmp = true →
      alContains
        (alMapAt (if !(alContains cc rmp) then cc ++ [(rmp, ([] : MetadataRecord))] else cc)
          rmp (fun rec => alSet rec pv.1 pv.2)) rmp = true := by
    intro cc pv hcc
    rw [alContains_alMapAt, hcc, if_neg (by simp), hcc]
  have hfold : ∀ (pairs : List (RelPath × Value)) (cc : MetaFileCache),
      alContains cc rmp = true →
      alContains
        (pairs.foldl
          (fun cc pv =>
            alMapAt (if !(alContains cc rmp) then cc ++ [(rmp, ([] : MetadataRecord))] else cc)
              rmp (fun rec => alSet rec pv.1 pv.2)) cc) rmp = true := by
    intro pairs
    induction pairs with
    | nil => intro cc hcc; exact hcc
    | cons pv rest ih =>
      intro cc hcc
      exact ih _ (hstep cc pv hcc)
  have hremGet : alGet (alRemove c rmp) rmp = none := alGet_alRemove_self c rmp hnd
  have hrem : alContains (alRemove c rmp) rmp = false := by
    unfold alContains
    rw [hremGet]
    rfl
  have hfirst : ∀ pv : RelPath × Value,
      alContains
        (alMapAt
          (if !(alContains (alRemove c rmp) rmp)
            then alRemove c rmp ++ [(rmp, ([] : MetadataRecord))] else alRemove c rmp)
          rmp (fun rec => alSet rec pv.1 pv.2)) rmp = true := by
    intro pv
    rw [alContains_alMapAt, if_pos (by simp [hrem])]
    unfold alContains
    rw [alGet_append_of_none _ _ _ hremGet]
    simp [alGet]
  have hmain : alContains (cacheMetaFile cfg c rmp false).1 rmp
      = !(itemsFromMetaFile cfg rmp).1.isEmpty := by
    unfold cacheMetaFile
    rw [if_neg (by simp [hc])]
    rcases hI : itemsFromMetaFile cfg rmp with ⟨pairs, err⟩
    simp only
    cases pairs with
    | nil => simpa using hrem
    | cons pv rest =>
      simp only [List.foldl_cons, List.isEmpty_cons, Bool.not_false]
      exact hfold rest _ (hfirst pv)
  refine ⟨hmain, ?_⟩
  have hsecond : ∀ c' : MetaFileCache,
      (cacheMetaFile cfg c' rmp false).2.1 = !(alContains c' rmp) := by
    intro c'
    unfold cacheMetaFile
    by_cases hcc : alContains c' rmp
    · rw [if_pos (by simp [hcc]), hcc]
      rfl
    · rw [if_neg (by simp [hcc])]
      rcases itemsFromMetaFile cfg rmp with ⟨pairs, err⟩
      simp only
      rw [Bool.not_eq_true] at hcc
      rw [hcc]
      rfl
  rw [hsecond, hmain, Bool.not_not]

/-- A library whose root carries a self-role metadata file with a
non-mapping (string) payload: the multiplexer yields zero pairs for
it. -/
def cfgSelfStr : LibCfg :=
  { rootSegs := ["lib"]
    fs := .dir [("taggu_self.yml", .file (.vstr "oops"))]
    itemFilter := none
    sortKeyF := none
    selfMetaFileName := "taggu_self.yml"
    itemMetaFileName := "taggu_item.yml" }

/-- Counterexample to C4 as stated: parsing a metadata file that yields
no pairs stores no cache entry at all, so the second `ensure` without
`force` parses the file again (the parse probe fires twice). -/
theorem cacheMetaFile_counterexample :
    (cacheMetaFile cfgSelfStr [] ["taggu_self.yml"] false).1 = [] ∧
    (cacheMetaFile cfgSelfStr [] ["taggu_self.yml"] false).2.1 = true ∧
    (cacheMetaFile cfgSelfStr
      (cacheMetaFile cfgSelfStr [] ["taggu_self.yml"] false).1
      ["taggu_self.yml"] false).2.1 = true :=
  ⟨rfl, rfl, rfl⟩

/-- Witness for C4 (amended): with a self metadata file whose mapping
yields one pair, the entry is stored and the second `ensure` is a cache
hit; run at `cfgC1`'s meta file. -/
theorem cacheMetaFile_stores_iff_nonempty_witness :
    alContains (cacheMetaFile cfgC1 [] ["d", "taggu_self.yml"] false).1
        ["d", "taggu_self.yml"]
      = !(itemsFromMetaFile cfgC1 ["d", "taggu_self.yml"]).1.isEmpty ∧
    (cacheMetaFile cfgC1 (cacheMetaFile cfgC1 [] ["d", "taggu_self.yml"] false).1
        ["d", "taggu_self.yml"] false).2.1
      = (itemsFromMetaFile cfgC1 ["d", "taggu_self.yml"]).1.isEmpty :=
  cacheMetaFile_stores_iff_nonempty cfgC1 [] ["d", "taggu_self.yml"]
    (by simp) (by rfl)

/-! ### Claim C8: fuzzy prefix lookup -/

theorem globMatch_lit_star (p : List Char) (s : List Char)
    (hp : ∀ ch ∈ p, ch ≠ '*' ∧ ch ≠ '?') :
    globMatch (p ++ ['*']) s = p.isPrefixOf s := by
  induction p generalizing s with
  | nil =>
    rw [List.nil_append]
    have h1 : globMatch ['*'] s = s.tails.any (fun t => t.isEmpty) := by
      unfold globMatch
      rw [if_pos rfl]
      rfl
    rw [h1]
    simp only [List.isPrefixOf]
    rw [List.any_eq_true]
    exact ⟨[], (List.mem_tails [] s).mpr List.nil_suffix, rfl⟩
  | cons c cs ih =>
    have hc := hp c (List.mem_cons_self c cs)
    have hcs : ∀ ch ∈ cs, ch ≠ '*' ∧ ch ≠ '?' :=
      fun ch hch => hp ch (List.mem_cons_of_mem _ hch)
    cases s with
    | nil =>
      rw [List.cons_append, globMatch, if_neg hc.1]
      rfl
    | cons d ss =>
      rw [List.cons_append, globMatch, if_neg hc.1]
      by_cases hcd : c = d
      · subst hcd
        simp [List.isPrefixOf, ih ss hcs]
      · simp [List.isPrefixOf, hcd, hc.2]

/-- C8, amended: For a prefix free of glob metacharacters (`*`, `?`,
`[`) and path separators, `fuzzy_name_lookup` succeeds — returning an
entry of the directory that has the prefix — iff exactly one entry of
the directory has the prefix string as a prefix of its name, and
otherwise raises `NonUniqueFuzzyFileLookup` carrying the found count
(against the expected count of 1).  (For prefixes containing
metacharacters the pattern `prefix*` is a shell glob, which is weaker
than string-prefix matching — see the counterexample.) -/
theorem fuzzyNameLookup_prefix_spec (cfg : LibCfg) (rdir : RelPath) (pfx : String)
    (r root' : List String) (hn : coNormRel cfg rdir = .ok (r, root'))
    (hpfx : ∀ ch ∈ pfx.toList, ch ≠ '*' ∧ ch ≠ '?' ∧ ch ≠ '[' ∧ ch ≠ '/') :
    ((∃ n, fuzzyNameLookup cfg rdir pfx = .ok n ∧
        n ∈ allNamesAt cfg r ∧ pfx.toList.isPrefixOf n.toList) ↔
      ((allNamesAt cfg r).filter (fun n => pfx.toList.isPrefixOf n.toList)).length = 1) ∧
    (((allNamesAt cfg r).filter (fun n => pfx.toList.isPrefixOf n.toList)).length ≠ 1 →
      fuzzyNameLookup cfg rdir pfx =
        .error (.nonUniqueFuzzyFileLookup
          ((allNamesAt cfg r).filter (fun n => pfx.toList.isPrefixOf n.toList)).length)) := by
  have hcongr : (allNamesAt cfg r).filter
        (fun n => globMatch (pfx.toList ++ ['*']) n.toList)
      = (allNamesAt cfg r).filter (fun n => pfx.toList.isPrefixOf n.toList) := by
    refine List.filter_congr (fun n _ => ?_)
    exact globMatch_lit_star pfx.toList n.toList
      (fun ch hch => ⟨(hpfx ch hch).1, (hpfx ch hch).2.1⟩)
  have hfz : fuzzyNameLookup cfg rdir pfx =
      (match (allNamesAt cfg r).filter (fun n => pfx.toList.isPrefixOf n.toList) with
       | [n] => .ok n
       | rs => .error (.nonUniqueFuzzyFileLookup rs.length)) := by
    unfold fuzzyNameLookup
    rw [hn]
    show (match (allNamesAt cfg r).filter
        (fun n => globMatch (pfx.toList ++ ['*']) n.toList) with
      | [n] => Except.ok n
      | rs => Except.error (Err.nonUniqueFuzzyFileLookup rs.length)) = _
    rw [hcongr]
  rcases hres : (allNamesAt cfg r).filter (fun n => pfx.toList.isPrefixOf n.toList)
    with _ | ⟨n1, _ | ⟨n2, rest⟩⟩
  · rw [hres] at hfz
    constructor
    · constructor
      · rintro ⟨n, hok, -, -⟩
        rw [hfz] at hok
        exact absurd hok (by simp)
      · intro hk
        rw [hres] at hk
        exact absurd hk (by simp)
    · intro _
      rw [hfz, hres]
  · rw [hres] at hfz
    have hmem : n1 ∈ (allNamesAt cfg r).filter (fun n => pfx.toList.isPrefixOf n.toList) := by
      rw [hres]
      exact List.mem_singleton_self n1
    constructor
    · constructor
      · intro _
        rw [hres]
        rfl
      · intro _
        exact ⟨n1, hfz, List.mem_of_mem_filter hmem, (List.mem_filter.mp hmem).2⟩
    · intro hk
      rw [hres] at hk
      exact absurd rfl hk
  · rw [hres] at hfz
    constructor
    · constructor
      · rintro ⟨n, hok, -, -⟩
        rw [hfz] at hok
        exact absurd hok (by simp)
      · intro hk
        rw [hres] at hk
        exact absurd hk (by simp)
    · intro _
      rw [hfz, hres]

/-- A directory holding the spec's fuzzy-lookup example entries. -/
def cfgFuzzy : LibCfg :=
  { rootSegs := ["lib"]
    fs := .dir [("T01_7f3a.flac", .file .vnull), ("T02_9b21.flac", .file .vnull)]
    itemFilter := none
    sortKeyF := none
    selfMetaFileName := "taggu_self.yml"
    itemMetaFileName := "taggu_item.yml" }

/-- Witness for C8 (amended): `"T01"` resolves to the unique entry
`T01_7f3a.flac`. -/
theorem fuzzyNameLookup_prefix_spec_witness :
    ((∃ n, fuzzyNameLookup cfgFuzzy [] "T01" = .ok n ∧
        n ∈ allNamesAt cfgFuzzy [] ∧ "T01".toList.isPrefixOf n.toList) ↔
      ((allNamesAt cfgFuzzy []).filter
        (fun n => "T01".toList.isPrefixOf n.toList)).length = 1) ∧
    (((allNamesAt cfgFuzzy []).filter
        (fun n => "T01".toList.isPrefixOf n.toList)).length ≠ 1 →
      fuzzyNameLookup cfgFuzzy [] "T01" =
        .error (.nonUniqueFuzzyFileLookup
          ((allNamesAt cfgFuzzy []).filter
            (fun n => "T01".toList.isPrefixOf n.toList)).length)) :=
  fuzzyNameLookup_prefix_spec cfgFuzzy [] "T01" [] ["lib"] rfl (by decide)

/-- A directory with a single entry `ab`. -/
def cfgGlob : LibCfg :=
  { rootSegs := ["lib"]
    fs := .dir [("ab", .file .vnull)]
    itemFilter := none
    sortKeyF := none
    selfMetaFileName := "taggu_self.yml"
    itemMetaFileName := "taggu_item.yml" }

/-- Counterexample to C8 as stated: the prefix `?b` makes
`fuzzy_name_lookup` succeed (the glob `?b*` matches `ab`) although no
entry has the string `?b` as a prefix of its name, so "succeeds iff
exactly one entry has the string as a prefix" fails. -/
theorem fuzzyNameLookup_counterexample :
    fuzzyNameLookup cfgGlob [] "?b" = .ok "ab" ∧
    ((allNamesAt cfgGlob []).filter
      (fun n => "?b".toList.isPrefixOf n.toList)).length = 0 :=
  ⟨rfl, rfl⟩

/-! ### Claim C3: mapping-payload item metadata is best-effort per key -/

theorem fuzzy_ok_of_count_one (cfg : LibCfg) (r a : List String) (k : String)
    (hrr : coNormRel cfg r = .ok (r, a))
    (hcount : ((allNamesAt cfg r).filter
      (fun n => globMatch (k.toList ++ ['*']) n.toList)).length = 1) :
    ∃ n, fuzzyNameLookup cfg r k = .ok n ∧
      n ∈ (allNamesAt cfg r).filter (fun n => globMatch (k.toList ++ ['*']) n.toList) := by
  rcases hres : (allNamesAt cfg r).filter (fun n => globMatch (k.toList ++ ['*']) n.toList)
    with _ | ⟨n1, _ | ⟨n2, rest⟩⟩
  · rw [hres] at hcount
    exact absurd hcount (by simp)
  · refine ⟨n1, ?_, by rw [hres]; exact List.mem_singleton_self n1⟩
    unfold fuzzyNameLookup
    rw [hrr]
    show (match (allNamesAt cfg r).filter
        (fun n => globMatch (k.toList ++ ['*']) n.toList) with
      | [n] => Except.ok n
      | rs => Except.error (Err.nonUniqueFuzzyFileLookup rs.length)) = _
    rw [hres]
  · rw [hres] at hcount
    exact absurd hcount (by simp)

theorem contains_iff_mem {α : Type} [BEq α] [LawfulBEq α] {l : List α} {x : α} :
    l.contains x = true ↔ x ∈ l := by
  show l.elem x = true ↔ x ∈ l
  exact ⟨List.mem_of_elem_eq_true, List.elem_eq_true_of_mem⟩

theorem itemMapLoop_cons_invalid (cfg : LibCfg) (r : RelPath) (itemNames : List String)
    (k : String) (b : Value) (rest : List (String × Value)) (processed : List String)
    (hv : isValidItemName k = false) :
    itemMapLoop cfg r itemNames ((k, b) :: rest) processed
      = itemMapLoop cfg r itemNames rest processed := by
  simp [itemMapLoop, hv]

theorem itemMapLoop_cons_processed (cfg : LibCfg) (r : RelPath) (itemNames : List String)
    (k : String) (b : Value) (rest : List (String × Value)) (processed : List String)
    (n : String) (hv : isValidItemName k = true) (hok : fuzzyNameLookup cfg r k = .ok n)
    (hp : processed.contains n = true) :
    itemMapLoop cfg r itemNames ((k, b) :: rest) processed
      = itemMapLoop cfg r itemNames rest processed := by
  have hpm : n ∈ processed := contains_iff_mem.mp hp
  simp [itemMapLoop, hv, hok, hpm]

theorem itemMapLoop_cons_ineligible (cfg : LibCfg) (r : RelPath) (itemNames : List String)
    (k : String) (b : Value) (rest : List (String × Value)) (processed : List String)
    (n : String) (hv : isValidItemName k = true) (hok : fuzzyNameLookup cfg r k = .ok n)
    (hp : processed.contains n = false) (he : itemNames.contains n = false) :
    itemMapLoop cfg r itemNames ((k, b) :: rest) processed
      = itemMapLoop cfg r itemNames rest processed := by
  have hpm : n ∉ processed := fun hm => by
    rw [contains_iff_mem.mpr hm] at hp
    exact Bool.noConfusion hp
  have hem : n ∉ itemNames := fun hm => by
    rw [contains_iff_mem.mpr hm] at he
    exact Bool.noConfusion he
  simp [itemMapLoop, hv, hok, hpm, hem]

theorem itemMapLoop_cons_yield (cfg : LibCfg) (r : RelPath) (itemNames : List String)
    (k : String) (b : Value) (rest : List (String × Value)) (processed : List String)
    (n : String) (hv : isValidItemName k = true) (hok : fuzzyNameLookup cfg r k = .ok n)
    (hp : processed.contains n = false) (he : itemNames.contains n = true) :
    itemMapLoop cfg r itemNames ((k, b) :: rest) processed
      = ((r ++ [n], b) :: (itemMapLoop cfg r itemNames rest (n :: processed)).1,
         (itemMapLoop cfg r itemNames rest (n :: processed)).2) := by
  have hpm : n ∉ processed := fun hm => by
    rw [contains_iff_mem.mpr hm] at hp
    exact Bool.noConfusion hp
  have hem : n ∈ itemNames := contains_iff_mem.mp he
  rcases hI : itemMapLoop cfg r itemNames rest (n :: processed) with ⟨tl, e⟩
  simp [itemMapLoop, hv, hok, hpm, hem, hI]

theorem itemMapLoop_best_effort (cfg : LibCfg) (r a : List String)
    (itemNames : List String) (hrr : coNormRel cfg r = .ok (r, a)) :
    ∀ (entries : List (String × Value)) (processed : List String),
      (∀ kb ∈ entries, isValidItemName kb.1 = true →
        ((allNamesAt cfg r).filter
          (fun n => globMatch (kb.1.toList ++ ['*']) n.toList)).length = 1) →
      (itemMapLoop cfg r itemNames entries processed).2 = none ∧
      (∀ pb ∈ (itemMapLoop cfg r itemNames entries processed).1,
        ∃ n, n ∈ itemNames ∧ n ∉ processed ∧ pb.1 = r ++ [n]) ∧
      ((itemMapLoop cfg r itemNames entries processed).1.map Prod.fst).Nodup := by
  intro entries
  induction entries with
  | nil =>
    intro processed _
    refine ⟨rfl, ?_, by simp [itemMapLoop]⟩
    intro pb hpb
    exact absurd hpb (by simp [itemMapLoop])
  | cons kb rest ih =>
    intro processed huniq
    obtain ⟨k, b⟩ := kb
    have hrest : ∀ kb ∈ rest, isValidItemName kb.1 = true →
        ((allNamesAt cfg r).filter
          (fun n => globMatch (kb.1.toList ++ ['*']) n.toList)).length = 1 :=
      fun kb hkb => huniq kb (List.mem_cons_of_mem _ hkb)
    by_cases hv : isValidItemName k = true
    · obtain ⟨n, hok, -⟩ :=
        fuzzy_ok_of_count_one cfg r a k hrr (huniq (k, b) (List.mem_cons_self _ _) hv)
      by_cases hproc : processed.contains n = true
      · rw [itemMapLoop_cons_processed cfg r itemNames k b rest processed n hv hok hproc]
        exact ih processed hrest
      · rw [Bool.not_eq_true] at hproc
        by_cases helig : itemNames.contains n = true
        · have hihres := ih (n :: processed) hrest
          rw [itemMapLoop_cons_yield cfg r itemNames k b rest processed n hv hok hproc helig]
          refine ⟨hihres.1, ?_, ?_⟩
          · intro pb hpb
            rcases List.mem_cons.mp hpb with rfl | hpb'
            · refine ⟨n, contains_iff_mem.mp helig, ?_, rfl⟩
              intro hmem
              rw [contains_iff_mem.mpr hmem] at hproc
              exact Bool.noConfusion hproc
            · obtain ⟨m, hm1, hm2, hm3⟩ := hihres.2.1 pb hpb'
              exact ⟨m, hm1, fun hmm => hm2 (List.mem_cons_of_mem _ hmm), hm3⟩
          · rw [List.map_cons, List.nodup_cons]
            refine ⟨?_, hihres.2.2⟩
            intro hmem
            rcases List.mem_map.mp hmem with ⟨pb, hpb, hfst⟩
            obtain ⟨m, -, hm2, hm3⟩ := hihres.2.1 pb hpb
            rw [hm3] at hfst
            have hmn : m = n := by
              have := List.append_cancel_left hfst
              injection this
            exact hm2 (hmn ▸ List.mem_cons_self n processed)
        · rw [Bool.not_eq_true] at helig
          rw [itemMapLoop_cons_ineligible cfg r itemNames k b rest processed n hv hok
            hproc helig]
          exact ih processed hrest
    · rw [Bool.not_eq_true] at hv
      rw [itemMapLoop_cons_invalid cfg r itemNames k b rest processed hv]
      exact ih processed hrest

/-- C3, amended: For a mapping-payload item-role metadata file,
per-key processing is best-effort for invalid keys, already-claimed
names and names outside the eligible set (warned and skipped), and each
eligible item receives at most one block; but a key whose fuzzy glob
finds zero or several directory entries makes `fuzzy_name_lookup` raise
`NonUniqueFuzzyFileLookup` out of the multiplexer (see the
counterexample).  When every valid key has exactly one glob match, the
multiplexer completes without raising, every yielded pair targets an
eligible item of the directory, and no item receives two blocks. -/
theorem yieldItemMetaPairs_best_effort (cfg : LibCfg) (entries : List (String × Value))
    (dirPath : RelPath) (r a : List String)
    (hroot : ∀ s ∈ cfg.rootSegs, plainSeg s)
    (hn : coNormRel cfg dirPath = .ok (r, a))
    (huniq : ∀ kb ∈ entries, isValidItemName kb.1 = true →
      ((allNamesAt cfg r).filter
        (fun n => globMatch (kb.1.toList ++ ['*']) n.toList)).length = 1) :
    (yieldItemMetaPairs cfg (.vmap entries) dirPath).2 = none ∧
    (∀ pb ∈ (yieldItemMetaPairs cfg (.vmap entries) dirPath).1,
      ∃ n, n ∈ itemNamesInDir cfg r ∧ pb.1 = r ++ [n]) ∧
    ((yieldItemMetaPairs cfg (.vmap entries) dirPath).1.map Prod.fst).Nodup := by
  have hrr : coNormRel cfg r = .ok (r, a) :=
    coNorm_renorm cfg.rootSegs dirPath r a hroot hn
  have heq : yieldItemMetaPairs cfg (.vmap entries) dirPath
      = itemMapLoop cfg r (itemNamesInDir cfg r) entries [] := by
    unfold yieldItemMetaPairs
    rw [hn]
  rw [heq]
  obtain ⟨h1, h2, h3⟩ :=
    itemMapLoop_best_effort cfg r a (itemNamesInDir cfg r) hrr entries [] huniq
  exact ⟨h1, fun pb hpb => (h2 pb hpb).imp (fun n hn' => ⟨hn'.1, hn'.2.2⟩), h3⟩

/-- Witness for C3 (amended): the key `T01` fuzzy-resolves uniquely in
`cfgFuzzy`, so the multiplexer yields its pair without raising. -/
theorem yieldItemMetaPairs_best_effort_witness :
    (yieldItemMetaPairs cfgFuzzy (.vmap [("T01", Value.vnull)]) []).2 = none ∧
    (∀ pb ∈ (yieldItemMetaPairs cfgFuzzy (.vmap [("T01", Value.vnull)]) []).1,
      ∃ n, n ∈ itemNamesInDir cfgFuzzy [] ∧ pb.1 = [] ++ [n]) ∧
    ((yieldItemMetaPairs cfgFuzzy
        (.vmap [("T01", Value.vnull)]) []).1.map Prod.fst).Nodup :=
  yieldItemMetaPairs_best_effort cfgFuzzy [("T01", Value.vnull)] [] [] ["lib"]
    (by decide) rfl (by decide)

/-- Counterexample to C3 as stated: a mapping key matching no directory
entry is not warned-and-skipped — `fuzzy_name_lookup` raises
`NonUniqueFuzzyFileLookup` (found 0) and the multiplexer aborts. -/
theorem yieldItemMetaPairs_counterexample :
    (yieldItemMetaPairs cfgGlob (.vmap [("zz", Value.vnull)]) []).2
      = some (.nonUniqueFuzzyFileLookup 0) := rfl

/-! ### Claim C2: composite field values and the missing flattener -/

/-- A library whose root directory's self metadata maps `f` to a
sequence and `g` to a mapping. -/
def cfgC2 : LibCfg :=
  { rootSegs := ["lib"]
    fs := .dir [("taggu_self.yml", .file (.vmap
      [("f", .vseq [.vstr "a", .vstr "b"]),
       ("g", .vmap [("k", .vstr "v")])]))]
    itemFilter := none
    sortKeyF := none
    selfMetaFileName := "taggu_self.yml"
    itemMetaFileName := "taggu_item.yml" }

def qC2 : QueryCfg := { lib := cfgC2, labelExtractor := none }

/-- C2, code bug: `yield_field` on a sequence-valued and on a
mapping-valued field (with the default `recursive=True`) raises
`AttributeError` instead of yielding the flattened elements:
contexts/query.py line 138 and line 147 call
`taggu.helpers.recursive_flatten`, which `taggu/helpers.py` does not
define.  (The repository's `field_flattener`, tested in
`test_query_context.py`, implements the specified flattening but is
never called by `yield_field`.) -/
theorem yieldField_missing_flattener_bug :
    yieldField qC2 [] "f" none MappingIterStyle.keys true
        = ([], some .attributeError) ∧
      yieldField qC2 [] "g" none MappingIterStyle.keys true
        = ([], some .attributeError) :=
  ⟨rfl, rfl⟩

/-! ### Claim C10: self-role metadata takes priority over item-role -/

theorem metaFilesFromSpec_singleton (cfg : LibCfg) (name : String) (d : RelPath)
    (rd : RelPath) (ad : List String) (h : coNormRel cfg d = .ok (rd, ad)) :
    metaFilesFromSpec cfg name [d]
      = .ok (if isFileAt cfg (rd ++ [name]) then [rd ++ [name]] else []) := by
  simp [metaFilesFromSpec, h]
  cases isFileAt cfg (rd ++ [name]) <;> simp [pure, Except.pure]

/-- C10: The meta source specs are emitted self-role first, so for a
directory item whose self metadata block defines a field, `yield_field`
returns the conversion of the self-role value and stops — the result
does not depend on any item-role metadata a parent might assign to the
item. -/
theorem yieldField_self_priority (q : QueryCfg) (rip : RelPath) (f : String)
    (style : MappingIterStyle) (m : List (String × Value)) (v : Value)
    (hroot : ∀ s ∈ q.lib.rootSegs, plainSeg s)
    (hrip : ∀ s ∈ rip, plainSeg s)
    (hsn : plainSeg q.lib.selfMetaFileName)
    (hdir : isDirAt q.lib rip = true)
    (hself : q.lib.fs.find (rip ++ [q.lib.selfMetaFileName])
      = some (.file (.vmap m)))
    (hv : alGet m f = some v) :
    yieldField q rip f none style true = convertFieldVal style true v := by
  have hcn : coNormRel q.lib rip = .ok (rip, q.lib.rootSegs ++ rip) :=
    coNormRel_plain q.lib rip hroot hrip
  have hfile : isFileAt q.lib (rip ++ [q.lib.selfMetaFileName]) = true := by
    unfold isFileAt
    rw [hself]
  have hcd : yieldContainsDir q.lib rip = .ok [rip] := by
    simp [yieldContainsDir, hcn, hdir]
  have hspecSelf : metaFilesFromSpec q.lib q.lib.selfMetaFileName [rip]
      = .ok [rip ++ [q.lib.selfMetaFileName]] := by
    rw [metaFilesFromSpec_singleton q.lib _ rip rip _ hcn, hfile]
    rfl
  have hsib : ∃ tl, metaFilesFromSpec q.lib q.lib.itemMetaFileName (yieldSiblingsDir rip)
      = .ok tl := by
    by_cases hre : rip.isEmpty = true
    · refine ⟨[], ?_⟩
      rw [show yieldSiblingsDir rip = [] from by rw [yieldSiblingsDir, if_pos hre]]
      rfl
    · have hdp : coNormRel q.lib rip.dropLast
          = .ok (rip.dropLast, q.lib.rootSegs ++ rip.dropLast) :=
        coNormRel_plain q.lib rip.dropLast hroot
          (fun s hs => hrip s ((List.dropLast_sublist rip).mem hs))
      refine ⟨if isFileAt q.lib (rip.dropLast ++ [q.lib.itemMetaFileName])
          then [rip.dropLast ++ [q.lib.itemMetaFileName]] else [], ?_⟩
      rw [show yieldSiblingsDir rip = [rip.dropLast] from by
        rw [yieldSiblingsDir, if_neg hre]]
      exact metaFilesFromSpec_singleton q.lib _ rip.dropLast rip.dropLast _ hdp
  obtain ⟨tl, hsib'⟩ := hsib
  have hmfi : metaFilesFromItem q.lib rip
      = .ok ((rip ++ [q.lib.selfMetaFileName]) :: tl) := by
    unfold metaFilesFromItem
    rw [hcd]
    show (metaFilesFromSpec q.lib q.lib.selfMetaFileName [rip] >>= fun selfFiles =>
      metaFilesFromSpec q.lib q.lib.itemMetaFileName (yieldSiblingsDir rip) >>=
        fun itemFiles => pure (selfFiles ++ itemFiles)) = _
    rw [hspecSelf]
    show (metaFilesFromSpec q.lib q.lib.itemMetaFileName (yieldSiblingsDir rip) >>=
      fun itemFiles => pure ([rip ++ [q.lib.selfMetaFileName]] ++ itemFiles)) = _
    rw [hsib']
    rfl
  have hitems : itemsFromMetaFile q.lib (rip ++ [q.lib.selfMetaFileName])
      = ([(rip, .vmap m)], none) := by
    have hcns : coNormRel q.lib (rip ++ [q.lib.selfMetaFileName])
        = .ok (rip ++ [q.lib.selfMetaFileName],
            q.lib.rootSegs ++ (rip ++ [q.lib.selfMetaFileName])) := by
      refine coNormRel_plain q.lib _ hroot (fun s hs => ?_)
      rcases List.mem_append.mp hs with h' | h'
      · exact hrip s h'
      · rcases List.mem_singleton.mp h' with rfl
        exact hsn
    unfold itemsFromMetaFile
    rw [hcns]
    simp only [hfile, Bool.not_true, Bool.false_eq_true, if_false,
      List.dropLast_concat, List.getLast?_concat, Option.getD_some, if_pos rfl]
    have hcontent : contentAt q.lib (rip ++ [q.lib.selfMetaFileName]) = .vmap m := by
      unfold contentAt
      rw [hself]
    rw [hcontent]
    rfl
  unfold yieldField
  rw [hmfi]
  show fieldLoop q rip f style true ((rip ++ [q.lib.selfMetaFileName]) :: tl) = _
  rw [fieldLoop, hitems]
  simp only [List.foldl_cons, List.foldl_nil]
  have htc : alGet (alSet ([] : MetadataRecord) rip (Value.vmap m)) rip
      = some (.vmap m) := by
    simp [alSet, alGet]
  rw [htc]
  show (match blockGet (.vmap m) f with
    | none => fieldLoop q rip f style true tl
    | some fv => convertFieldVal style true fv) = _
  rw [blockGet, hv]

/-- A library with a directory `d` whose self metadata and whose parent's
item metadata both define field `t`, with different values. -/
def cfgC10 : LibCfg :=
  { rootSegs := ["lib"]
    fs := .dir
      [("d", .dir [("taggu_self.yml", .file (.vmap [("t", .vstr "self")]))]),
       ("taggu_item.yml", .file (.vmap [("d", .vmap [("t", .vstr "item")])]))]
    itemFilter := none
    sortKeyF := none
    selfMetaFileName := "taggu_self.yml"
    itemMetaFileName := "taggu_item.yml" }

def qC10 : QueryCfg := { lib := cfgC10, labelExtractor := none }

/-- Witness for C10: with both sources defining `t`, the self-role value
wins (the item-role assignment of `"item"` is never consulted). -/
theorem yieldField_self_priority_witness :
    yieldField qC10 ["d"] "t" none MappingIterStyle.keys true
      = convertFieldVal MappingIterStyle.keys true (.vstr "self") :=
  yieldField_self_priority qC10 ["d"] "t" MappingIterStyle.keys
    [("t", .vstr "self")] (.vstr "self")
    (by decide) (by decide) (by decide) rfl rfl rfl

/-! ### Claim C5: label-based gating -/

theorem genJoin_all_none {α : Type} (l : List (GenM α)) (h : ∀ x ∈ l, x = ([], none)) :
    genJoin l = ([], none) := by
  induction l with
  | nil => rfl
  | cons x xs ih =>
    have hx := h x (List.mem_cons_self _ _)
    have hxs := ih (fun y hy => h y (List.mem_cons_of_mem _ hy))
    show genAppend x (genJoin xs) = ([], none)
    rw [hx, hxs]
    rfl

/-- The label gate at the top of `yield_field`
(contexts/query.py:102-109): when the extractor is configured and the
path's derived label is not in the given set, the generator yields
nothing, before touching any metadata. -/
theorem yieldField_label_gate (q : QueryCfg) (ex : RelPath → String) (ls : List String)
    (p : RelPath) (f : String) (style : MappingIterStyle) (rec : Bool)
    (hex : q.labelExtractor = some ex) (hp : ex p ∉ ls) :
    yieldField q p f (some ls) style rec = ([], none) := by
  have hc : ls.contains (ex p) = false := by
    cases hcc : ls.contains (ex p)
    · rfl
    · exact absurd (contains_iff_mem.mp hcc) hp
  unfold yieldField
  rw [hex]
  show (if (!ls.contains (ex p)) = true then (([], none) : GenM Value)
    else match metaFilesFromItem q.lib p with
      | .error e => ([], some e)
      | .ok mps => fieldLoop q p f style rec mps) = ([], none)
  rw [hc]
  rfl

theorem childHelper_descendants_excluded (q : QueryCfg) (ex : RelPath → String)
    (ls : List String) (f : String) (style : MappingIterStyle)
    (hex : q.labelExtractor = some ex) :
    ∀ (n : Nat) (e : FsEntry), sizeOf e ≤ n →
      ∀ (rip : RelPath) (md : Option Int),
        (∀ sfx : List String, sfx ≠ [] → ex (rip ++ sfx) ∉ ls) →
        childHelper q f (some ls) style rip md e = ([], none) := by
  intro n
  induction n with
  | zero =>
    intro e he
    exfalso
    cases e with
    | file c => simp [FsEntry.file.sizeOf_spec] at he
    | dir es => simp [FsEntry.dir.sizeOf_spec] at he
  | succ n ih =>
    intro e he rip md hdesc
    cases e with
    | file c => simp [childHelper]
    | dir es =>
      by_cases hmd : mdPos md = true
      · simp only [childHelper, hmd, if_true]
        refine genJoin_all_none _ ?_
        intro x hx
        rcases List.mem_map.mp hx with ⟨pe, hpe, rfl⟩
        have hsz : sizeOf pe.val.2 ≤ n := by
          have h1 := sizeOf_snd_lt_dir (mem_sortedEligiblePairs pe.property)
          omega
        have hgate : yieldField q (rip ++ [pe.val.1]) f (some ls) style true
            = ([], none) :=
          yieldField_label_gate q ex ls (rip ++ [pe.val.1]) f style true hex
            (hdesc [pe.val.1] (by simp))
        have hco : genOrElse (([], none) : GenM Value)
            (childHelper q f (some ls) style (rip ++ [pe.val.1]) (decrMd md) pe.val.2)
            = childHelper q f (some ls) style (rip ++ [pe.val.1]) (decrMd md) pe.val.2 :=
          rfl
        rw [hgate, hco]
        refine ih pe.val.2 hsz (rip ++ [pe.val.1]) (decrMd md) ?_
        intro sfx hs
        rw [List.append_assoc]
        exact hdesc ([pe.val.1] ++ sfx) (by simp)
      · simp [childHelper, hmd]

/-- The ancestor paths `yield_parent_fields` consults: the parents of the
item, nearest first, truncated to `max_distance` when that is given and
non-negative (the truncation in contexts/query.py:172-175). -/
def parentPathsConsulted (rip : RelPath) (maxD : Option Int) : List RelPath :=
  match maxD with
  | some d => if 0 ≤ d then (parentsOf rip).take d.toNat else parentsOf rip
  | none => parentsOf rip

/-- C5, amended: with a label extractor configured, `yield_field` on an
item whose derived label is not in the given label set yields nothing
(only the queried item's label matters there); `yield_parent_fields`
and `yield_child_fields` apply the label test to each ancestor or
descendant they consult rather than to the queried item, so
`yield_parent_fields` is empty whenever the derived label of every
ancestor it consults is excluded, and `yield_child_fields` is empty
whenever the derived label of every strict descendant path of the item
(every path the walk can consult) is excluded — regardless of the labels
of the queried item or of any path outside those sets (the traversals
can return values for an excluded-label item whose ancestors or
descendants carry included labels — see the counterexample). -/
theorem label_gate_all_excluded (q : QueryCfg) (ex : RelPath → String)
    (ls : List String) (rip : RelPath) (f : String) (maxD : Option Int)
    (style : MappingIterStyle)
    (hex : q.labelExtractor = some ex)
    (hroot : ∀ s ∈ q.lib.rootSegs, plainSeg s)
    (hrip : ∀ s ∈ rip, plainSeg s) :
    (ex rip ∉ ls → yieldField q rip f (some ls) style true = ([], none)) ∧
    ((∀ p ∈ parentPathsConsulted rip maxD, ex p ∉ ls) →
      yieldParentFields q rip f maxD (some ls) style = ([], none)) ∧
    ((∀ sfx : List String, sfx ≠ [] → ex (rip ++ sfx) ∉ ls) →
      yieldChildFields q rip f maxD (some ls) style = ([], none)) := by
  refine ⟨fun h => yieldField_label_gate q ex ls rip f style true hex h, ?_, ?_⟩
  · intro hanc
    have heq : yieldParentFields q rip f maxD (some ls) style
        = parentLoop q f (some ls) style (parentPathsConsulted rip maxD) := rfl
    rw [heq]
    revert hanc
    generalize parentPathsConsulted rip maxD = paths
    intro hanc
    induction paths with
    | nil => rfl
    | cons p rest ih =>
      rw [parentLoop,
        yieldField_label_gate q ex ls p f style true hex (hanc p (List.mem_cons_self _ _))]
      simpa using ih (fun p' hp' => hanc p' (List.mem_cons_of_mem _ hp'))
  · intro hdesc
    unfold yieldChildFields
    rw [coNormRel_plain q.lib rip hroot hrip]
    show (match q.lib.fs.find rip with
      | some e => childHelper q f (some ls) style rip maxD e
      | none => ([], none)) = ([], none)
    cases hf : q.lib.fs.find rip with
    | none => rfl
    | some e =>
      exact childHelper_descendants_excluded q ex ls f style hex (sizeOf e) e le_rfl
        rip maxD hdesc

/-- A library with a directory `a` (label `a`) holding a self metadata
file and a track `z.mp3` (label `z`). -/
def cfgC5 : LibCfg :=
  { rootSegs := ["lib"]
    fs := .dir [("a", .dir
      [("taggu_self.yml", .file (.vmap [("g", .vstr "v")])),
       ("z.mp3", .file .vnull)])]
    itemFilter := none
    sortKeyF := none
    selfMetaFileName := "taggu_self.yml"
    itemMetaFileName := "taggu_item.yml" }

/-- The label extractor used in the counterexample: the first character
of the path's final name. -/
def labelHead (p : RelPath) : String := ((p.getLast?).getD "").take 1

def qC5 : QueryCfg := { lib := cfgC5, labelExtractor := some labelHead }

/-- Counterexample to C5 as stated: the item `a/z.mp3` has derived label
`z`, not in the set `{a}`, yet `yield_parent_fields` on it returns the
parent's value `v` — the label filter is applied to the ancestor `a`
(whose label is in the set), not to the queried item. -/
theorem yieldParentFields_label_counterexample :
    labelHead ["a", "z.mp3"] = "z" ∧ ("z" ∈ (["a"] : List String) → False) ∧
    yieldParentFields qC5 ["a", "z.mp3"] "g" none (some ["a"]) MappingIterStyle.keys
      = ([.vstr "v"], none) :=
  ⟨rfl, by decide, rfl⟩

/-- A label extractor distinguishing the root level from deeper paths,
used to witness the descendant clause with mixed labels. -/
def depthLabel (p : RelPath) : String := if p.length ≤ 1 then "near" else "far"

def qC5depth : QueryCfg := { lib := cfgC5, labelExtractor := some depthLabel }

/-- Witness for C5 (amended), with mixed labels in every part: the item
`a/z.mp3` (label `z` outside `{a}`) gets no direct field although its
ancestor `a` is labelled inside the set; the same item's consulted
ancestors (`a` and the root, labels `a` and the empty string) are all
outside `{z}` although the item itself is labelled `z`; and under
`depthLabel` every strict descendant of `a` is labelled `far`, outside
`{near}`, although `a` itself is labelled `near`. -/
theorem label_gate_all_excluded_witness :
    yieldField qC5 ["a", "z.mp3"] "g" (some ["a"]) MappingIterStyle.keys true
      = ([], none) ∧
    yieldParentFields qC5 ["a", "z.mp3"] "g" none (some ["z"]) MappingIterStyle.keys
      = ([], none) ∧
    yieldChildFields qC5depth ["a"] "g" none (some ["near"]) MappingIterStyle.keys
      = ([], none) := by
  refine ⟨?_, ?_, ?_⟩
  · exact (label_gate_all_excluded qC5 labelHead ["a"] ["a", "z.mp3"] "g" none
      MappingIterStyle.keys rfl (by decide) (by decide)).1 (by decide)
  · exact (label_gate_all_excluded qC5 labelHead ["z"] ["a", "z.mp3"] "g" none
      MappingIterStyle.keys rfl (by decide) (by decide)).2.1 (by decide)
  · refine (label_gate_all_excluded qC5depth depthLabel ["near"] ["a"] "g" none
      MappingIterStyle.keys rfl (by decide) (by decide)).2.2 ?_
    intro sfx hs hmem
    have hlen : 2 ≤ (["a"] ++ sfx).length := by
      cases sfx with
      | nil => exact absurd rfl hs
      | cons x xs => simp
    have hfar : depthLabel (["a"] ++ sfx) = "far" := by
      unfold depthLabel
      rw [if_neg (by omega)]
    rw [hfar] at hmem
    exact absurd hmem (by decide)

/-! ### Claim C9: pre-order child traversal -/

theorem lookupEntry_of_mem (es : List (String × FsEntry)) (n : String) (ce : FsEntry)
    (hnd : (es.map Prod.fst).Nodup) (hm : (n, ce) ∈ es) :
    lookupEntry es n = some ce := by
  induction es with
  | nil => exact absurd hm (List.not_mem_nil _)
  | cons p rest ih =>
    obtain ⟨m, e⟩ := p
    simp only [List.map_cons, List.nodup_cons] at hnd
    rcases List.mem_cons.mp hm with heq | hm'
    · injection heq with h1 h2
      subst h1
      rw [lookupEntry, if_pos rfl]
      exact congrArg some h2.symm
    · have hmn : m ≠ n := by
        intro hmn
        subst hmn
        exact hnd.1 (List.mem_map.mpr ⟨(m, ce), hm', rfl⟩)
      rw [lookupEntry, if_neg hmn]
      exact ih hnd.2 hm'

theorem find_child (e : FsEntry) (r : RelPath) (n : String)
    (es : List (String × FsEntry)) (ce : FsEntry)
    (hfind : e.find r = some (.dir es)) (hlk : lookupEntry es n = some ce) :
    e.find (r ++ [n]) = some ce := by
  induction r generalizing e with
  | nil =>
    injection hfind with hfind
    subst hfind
    show FsEntry.find (.dir es) [n] = some ce
    rw [FsEntry.find]
    simp only [hlk]
    rfl
  | cons m rest ih =>
    cases e with
    | file c => exact absurd hfind (by rw [FsEntry.find]; simp)
    | dir es0 =>
      rw [List.cons_append, FsEntry.find]
      rw [FsEntry.find] at hfind
      cases hl : lookupEntry es0 m with
      | none => rw [hl] at hfind; exact absurd hfind (by simp)
      | some e1 =>
        rw [hl] at hfind
        simp only at hfind ⊢
        exact ih e1 hfind

/-- C9: On a directory item with budget remaining,
`yield_child_fields` is the in-order concatenation of the per-child
contributions over the sorted eligible children, each sibling searched
independently: a child whose `yield_field` produced values (or raised)
contributes exactly that run and is not descended into; a child with no
values contributes its own `yield_child_fields` with the budget
decremented; and a recursive call on a non-directory, or with no
remaining budget, yields nothing. -/
theorem yieldChildFields_structure (q : QueryCfg) (rip : RelPath) (f : String)
    (maxD : Option Int) (labels : Option (List String)) (style : MappingIterStyle)
    (es : List (String × FsEntry))
    (hroot : ∀ s ∈ q.lib.rootSegs, plainSeg s)
    (hrip : ∀ s ∈ rip, plainSeg s)
    (hfind : q.lib.fs.find rip = some (.dir es))
    (hnames : ∀ p ∈ es, plainSeg p.1)
    (hnd : (es.map Prod.fst).Nodup)
    (hmd : mdPos maxD = true) :
    yieldChildFields q rip f maxD labels style
        = genJoin ((sortedEligiblePairs q.lib es).map (fun p =>
            genOrElse (yieldField q (rip ++ [p.1]) f labels style true)
              (yieldChildFields q (rip ++ [p.1]) f (decrMd maxD) labels style))) ∧
      (∀ (rip2 : RelPath) (es2 : List (String × FsEntry)) (md2 : Option Int),
        (∀ s ∈ rip2, plainSeg s) → q.lib.fs.find rip2 = some (.dir es2) →
        mdPos md2 = false →
        yieldChildFields q rip2 f md2 labels style = ([], none)) ∧
      (∀ (rip2 : RelPath) (c : Value) (md2 : Option Int),
        (∀ s ∈ rip2, plainSeg s) → q.lib.fs.find rip2 = some (.file c) →
        yieldChildFields q rip2 f md2 labels style = ([], none)) := by
  have hchild : ∀ p ∈ sortedEligiblePairs q.lib es,
      yieldChildFields q (rip ++ [p.1]) f (decrMd maxD) labels style
        = childHelper q f labels style (rip ++ [p.1]) (decrMd maxD) p.2 := by
    intro p hp
    have hpes : p ∈ es := mem_sortedEligiblePairs hp
    have hplain : ∀ s ∈ rip ++ [p.1], plainSeg s := by
      intro s hs
      rcases List.mem_append.mp hs with h' | h'
      · exact hrip s h'
      · rcases List.mem_singleton.mp h' with rfl
        exact hnames p hpes
    have hfc : q.lib.fs.find (rip ++ [p.1]) = some p.2 :=
      find_child q.lib.fs rip p.1 es p.2 hfind
        (lookupEntry_of_mem es p.1 p.2 hnd (by rcases p with ⟨n, ce⟩; exact hpes))
    unfold yieldChildFields
    rw [coNormRel_plain q.lib _ hroot hplain]
    show (match q.lib.fs.find (rip ++ [p.1]) with
      | some e => childHelper q f labels style (rip ++ [p.1]) (decrMd maxD) e
      | none => ([], none)) = _
    rw [hfc]
  have hmapeq : (sortedEligiblePairs q.lib es).attach.map
      (fun pe =>
        genOrElse (yieldField q (rip ++ [pe.val.1]) f labels style true)
          (childHelper q f labels style (rip ++ [pe.val.1]) (decrMd maxD) pe.val.2))
      = (sortedEligiblePairs q.lib es).map (fun p =>
        genOrElse (yieldField q (rip ++ [p.1]) f labels style true)
          (yieldChildFields q (rip ++ [p.1]) f (decrMd maxD) labels style)) := by
    have hpt : ∀ pe : {x // x ∈ sortedEligiblePairs q.lib es},
        genOrElse (yieldField q (rip ++ [pe.val.1]) f labels style true)
          (childHelper q f labels style (rip ++ [pe.val.1]) (decrMd maxD) pe.val.2)
        = (fun p : String × FsEntry =>
            genOrElse (yieldField q (rip ++ [p.1]) f labels style true)
              (yieldChildFields q (rip ++ [p.1]) f (decrMd maxD) labels style)) pe.val := by
      intro pe
      show _ = genOrElse (yieldField q (rip ++ [pe.val.1]) f labels style true)
        (yieldChildFields q (rip ++ [pe.val.1]) f (decrMd maxD) labels style)
      rw [hchild pe.val pe.property]
    rw [List.map_congr_left (fun pe _ => hpt pe)]
    exact List.attach_map_coe (sortedEligiblePairs q.lib es)
      (fun p : String × FsEntry =>
        genOrElse (yieldField q (rip ++ [p.1]) f labels style true)
          (yieldChildFields q (rip ++ [p.1]) f (decrMd maxD) labels style))
  refine ⟨?_, ?_, ?_⟩
  · have hL : yieldChildFields q rip f maxD labels style
        = childHelper q f labels style rip maxD (.dir es) := by
      unfold yieldChildFields
      rw [coNormRel_plain q.lib rip hroot hrip]
      show (match q.lib.fs.find rip with
        | some e => childHelper q f labels style rip maxD e
        | none => ([], none)) = _
      rw [hfind]
    rw [hL, childHelper, if_pos hmd, hmapeq]
  · intro rip2 es2 md2 hplain2 hfind2 hmd2
    unfold yieldChildFields
    rw [coNormRel_plain q.lib rip2 hroot hplain2]
    show (match q.lib.fs.find rip2 with
      | some e => childHelper q f labels style rip2 md2 e
      | none => ([], none)) = _
    rw [hfind2]
    show childHelper q f labels style rip2 md2 (.dir es2) = _
    rw [childHelper]
    rw [if_neg (by rw [hmd2]; exact Bool.noConfusion)]
  · intro rip2 c md2 hplain2 hfind2
    unfold yieldChildFields
    rw [coNormRel_plain q.lib rip2 hroot hplain2]
    show (match q.lib.fs.find rip2 with
      | some e => childHelper q f labels style rip2 md2 e
      | none => ([], none)) = _
    rw [hfind2]
    simp [childHelper]

/-- The root directory listing of `cfgC10`. -/
def cfgC10Entries : List (String × FsEntry) :=
  [("d", .dir [("taggu_self.yml", .file (.vmap [("t", .vstr "self")]))]),
   ("taggu_item.yml", .file (.vmap [("d", .vmap [("t", .vstr "item")])]))]

/-- Witness for C9: the traversal characterization at `cfgC10`'s root
with an unlimited budget. -/
theorem yieldChildFields_structure_witness :
    yieldChildFields qC10 [] "t" none none MappingIterStyle.keys
        = genJoin ((sortedEligiblePairs qC10.lib cfgC10Entries).map (fun p =>
            genOrElse (yieldField qC10 ([] ++ [p.1]) "t" none MappingIterStyle.keys true)
              (yieldChildFields qC10 ([] ++ [p.1]) "t" (decrMd none) none
                MappingIterStyle.keys))) ∧
      (∀ (rip2 : RelPath) (es2 : List (String × FsEntry)) (md2 : Option Int),
        (∀ s ∈ rip2, plainSeg s) → qC10.lib.fs.find rip2 = some (.dir es2) →
        mdPos md2 = false →
        yieldChildFields qC10 rip2 "t" md2 none MappingIterStyle.keys = ([], none)) ∧
      (∀ (rip2 : RelPath) (c : Value) (md2 : Option Int),
        (∀ s ∈ rip2, plainSeg s) → qC10.lib.fs.find rip2 = some (.file c) →
        yieldChildFields qC10 rip2 "t" md2 none MappingIterStyle.keys = ([], none)) :=
  yieldChildFields_structure qC10 [] "t" none none MappingIterStyle.keys cfgC10Entries
    (by decide) (by decide) rfl (by decide) (by decide) rfl

end Taggu
